import Mathlib

/-!
Verification of `src/shell.py` (CacheCatalyst): a CLI utility that optionally
downloads placeholder images, recursively lists files under a media directory,
and renders an HTML index page from a template.

The Python source is shallowly embedded:
* the filesystem seen by `get_paths` is a finite tree of named entries
  (`Entry`), mirroring `os.listdir` + `os.path.isfile`;
* `os.path.join(root, name)` on a root with no trailing separator is
  `root ++ "/" ++ name` (`pathJoin`);
* Python's `str.replace` (replace ALL non-overlapping occurrences, scanning
  left to right) is `pyReplace`;
* `download_dataset` is modelled by the trace of fetch operations it issues;
* the `__main__` block is modelled by `mainRun`, with the jinja2 renderer and
  `os.path.abspath` as abstract function parameters.
-/

namespace Shell

/-- A node of the directory tree visited by `get_paths`: either a regular file
or a directory with a list of children (the order is `os.listdir` order). -/
inductive Entry where
  | file (name : String)
  | dir (name : String) (children : List Entry)
deriving Repr

/-- The name under which an entry appears in its parent's listing. -/
def entryName : Entry → String
  | .file n => n
  | .dir n _ => n

/-- `os.path.join(root, name)` for a root without a trailing separator. -/
def pathJoin (root name : String) : String := root ++ "/" ++ name

/-- Embedding of `get_paths` (src/shell.py lines 25-34): walk the listing in
order; append the joined path of each regular file, recurse into anything that
is not a regular file and splice in its result. -/
def getPaths (root : String) : List Entry → List String
  | [] => []
  | .file n :: rest => pathJoin root n :: getPaths root rest
  | .dir n cs :: rest => getPaths (pathJoin root n) cs ++ getPaths root rest

/-- Spec-level enumeration of the regular files under a listing, each file
given by its sequence of name components from the root (document order). -/
def filesUnder : List Entry → List (List String)
  | [] => []
  | .file n :: rest => [n] :: filesUnder rest
  | .dir n cs :: rest => (filesUnder cs).map (n :: ·) ++ filesUnder rest

/-- The path of a file reached from `root` through the name components
`comps`, joined exactly as repeated `os.path.join` would. -/
def specPath (root : String) (comps : List String) : String :=
  comps.foldl pathJoin root

/-- Modelled from the spec: "the set of file paths present" anywhere under the
root — every regular file in the tree, addressed by its joined path. -/
def specFilePaths (root : String) (es : List Entry) : List String :=
  (filesUnder es).map (specPath root)

/-- A name as returned by `os.listdir` never contains the path separator. -/
def noSlash (s : String) : Bool := !s.data.contains '/'

mutual

/-- Well-formedness of a tree node: its name is separator-free and its
children (if any) form a well-formed listing. -/
def validEntry : Entry → Bool
  | .file n => noSlash n
  | .dir n cs => noSlash n && validList cs

/-- Well-formedness of a directory listing: the names are pairwise distinct
(as `os.listdir` guarantees) and every entry is well-formed. -/
def validList (es : List Entry) : Bool :=
  decide (es.map entryName).Nodup && validEntries es

/-- Every entry of the listing is well-formed. -/
def validEntries : List Entry → Bool
  | [] => true
  | e :: es => validEntry e && validEntries es

end

/-! ### Python `str.replace` -/

/-- One scanning step of CPython `str.replace` with a non-empty pattern
`o :: os`: at each position, if the pattern matches, emit the replacement and
skip past the match, otherwise keep the character and move on. -/
def replaceGo (o : Char) (os new : List Char) : List Char → List Char
  | [] => []
  | c :: rest =>
    if (o :: os).isPrefixOf (c :: rest) then
      new ++ replaceGo o os new (rest.drop os.length)
    else
      c :: replaceGo o os new rest
termination_by l => l.length
decreasing_by
  · simp only [List.length_drop, List.length_cons]; omega
  · simp

/-- CPython `str.replace(old, new)`: replaces every non-overlapping occurrence
of `old`, scanning left to right; with an empty `old` the replacement is
inserted before every character and at the end. -/
def pyReplace (s old new : String) : String :=
  match old.data with
  | [] => ⟨new.data ++ s.data.foldr (fun c acc => c :: (new.data ++ acc)) []⟩
  | o :: os => ⟨replaceGo o os new.data s.data⟩

/-- The value placed in the `pictures` list handed to the template: either a
raw path string (no prefix given) or a `{"key": …}` record. -/
inductive PicVal where
  | raw (s : String)
  | record (key : String)
deriving Repr, DecidableEq

/-- Embedding of the record construction in `__main__` (src/shell.py lines
51-56): with a truthy (non-empty) `-prefix` argument every collected path is
wrapped in a `{"key": path.replace(media_dir + "/", pfx)}` record; otherwise
the collected paths are passed through as plain strings. -/
def composePictures (media_dir pfx : String) (pictures : List String) : List PicVal :=
  if pfx = "" then
    pictures.map PicVal.raw
  else
    pictures.map (fun p => PicVal.record (pyReplace p (media_dir ++ "/") pfx))

/-! ### Dataset seeder -/

/-- One `curl` invocation issued by `download_dataset`: the URL requested and
the `--output` destination. -/
structure FetchOp where
  url : String
  dest : String
deriving Repr, DecidableEq

/-- The URL requested for index `i` (src/shell.py line 20). -/
def picsumURL (i : Nat) : String :=
  "https://picsum.photos/1920/1080/?random=" ++ toString i

/-- The `--output` destination for index `i` (src/shell.py line 22). -/
def fetchDest (dst : String) (i : Nat) : String :=
  dst ++ "/" ++ toString i ++ ".jpg"

/-- Embedding of `download_dataset` (src/shell.py lines 14-23) as the trace of
fetch operations it issues: one per index `i` in `range(count)`, in order. -/
def download_dataset (dst : String) (count : Nat) : List FetchOp :=
  (List.range count).map (fun i => ⟨picsumURL i, fetchDest dst i⟩)

/-- The same loop with the exit status of every `subprocess.run` made
explicit (`ok i` = whether the fetch at index `i` succeeded). The source
never inspects the returned `CompletedProcess` and passes no `check=True`,
so the trace pairs every fetch with its outcome and continues regardless. -/
def download_dataset_run (dst : String) (count : Nat) (ok : Nat → Bool) :
    List (FetchOp × Bool) :=
  (List.range count).map (fun i => (⟨picsumURL i, fetchDest dst i⟩, ok i))

/-! ### Page composer and `__main__` -/

/-- Overwriting file write: the filesystem is a partial map from path to
contents, and `open(path, "w")` followed by `write` replaces whatever was at
`path` before. -/
def writeFile (fs : String → Option String) (path content : String) :
    String → Option String :=
  fun q => if q = path then some content else fs q

/-- Embedding of the compose-and-render tail of `__main__` (src/shell.py lines
51-59) acting on a filesystem: build the `pictures` records from the collected
paths, render `template.html` with them (the jinja2 renderer is the abstract
function `render`), and write the result to `os.path.join(media_dir,
"index.html")`. -/
def composeRun (render : String → List PicVal → String)
    (media_dir pfx : String) (pictures : List String)
    (fs : String → Option String) : String → Option String :=
  writeFile fs (pathJoin media_dir "index.html")
    (render "template.html" (composePictures media_dir pfx pictures))

/-- The only error the embedded `__main__` can raise before any filesystem or
network activity: `os.path.abspath(None)` raises `TypeError` when `-media-dir`
was not passed (argparse leaves `args.media_dir = None`). -/
inductive MainError where
  | typeError
deriving Repr, DecidableEq

/-- The observable effects of one completed run of `__main__`. -/
structure RunResult where
  fetches : List FetchOp
  pictures : List PicVal
  written : String × String
deriving Repr, DecidableEq

/-- Embedding of `__main__` (src/shell.py lines 36-59). `ap` abstracts
`os.path.abspath`, `render` abstracts the jinja2 renderer, and `tree` is the
listing of the media directory at the moment `get_paths` runs (after any
seeding). With no `-media-dir` argument, `args.media_dir` is `None` and
`os.path.abspath(None)` raises `TypeError` before anything else happens. -/
def mainRun (ap : String → String) (render : String → List PicVal → String)
    (tree : List Entry) (media_dir : Option String) (init_dataset : Int)
    (pfx : String) : Except MainError RunResult :=
  match media_dir with
  | none => .error .typeError
  | some mdArg =>
    let md := ap mdArg
    let fetches := if init_dataset > 0 then download_dataset md init_dataset.toNat else []
    let pics := getPaths md tree
    let recs := composePictures md pfx pics
    .ok ⟨fetches, recs, (pathJoin md "index.html", render "template.html" recs)⟩

/-- The effect of one completed run on the top-level listing of the media
directory: writing `index.html` creates that regular file if no entry of that
name existed; if a regular file of that name existed it is overwritten in
place and the listing is unchanged. (A run with a *directory* named
`index.html` does not complete: the `open` raises `IsADirectoryError`.) -/
def afterRun (es : List Entry) : List Entry :=
  if (es.map entryName).contains "index.html" then es
  else es ++ [.file "index.html"]

/-- No top-level entry named `index.html` is a directory — the condition for
the run's final `open(dst, "w")` to succeed. -/
def noIndexDir (es : List Entry) : Bool :=
  es.all (fun e => match e with
    | .dir "index.html" _ => false
    | _ => true)

/-! ### Fuel semantics over an arbitrary directory graph

`get_paths` trusts `os.listdir` blindly; with symlinks the reachable directory
graph need not be a tree. `getPathsF` runs the same traversal over an
arbitrary listing function with explicit fuel (recursion depth budget):
`none` means the budget was exhausted, i.e. the recursion did not bottom out
within that depth. -/

/-- One line of an `os.listdir` result together with its `os.path.isfile`
answer. -/
structure DirEnt where
  name : String
  isfile : Bool
deriving Repr, DecidableEq

/-- The `os.listdir` view of a tree entry. -/
def toDirEnt : Entry → DirEnt
  | .file n => ⟨n, true⟩
  | .dir n _ => ⟨n, false⟩

mutual

/-- Fuelled `get_paths` over an arbitrary listing function `fsys`. -/
def getPathsF (fsys : String → List DirEnt) : Nat → String → Option (List String)
  | 0, _ => none
  | fuel + 1, root => getEntriesF fsys fuel root (fsys root)
termination_by fuel _ => (fuel, 0)

/-- The loop body of the fuelled traversal over one listing. -/
def getEntriesF (fsys : String → List DirEnt) (fuel : Nat) (root : String) :
    List DirEnt → Option (List String)
  | [] => some []
  | e :: rest =>
    if e.isfile then
      (getEntriesF fsys fuel root rest).map (pathJoin root e.name :: ·)
    else do
      let sub ← getPathsF fsys fuel (pathJoin root e.name)
      let r ← getEntriesF fsys fuel root rest
      pure (sub ++ r)
termination_by l => (fuel, l.length + 1)

end

mutual

/-- `fsys` presents exactly the tree `es` when queried at `root` and,
recursively, at every subdirectory path of the tree. -/
def treeRep (fsys : String → List DirEnt) (root : String) (es : List Entry) : Prop :=
  fsys root = es.map toDirEnt ∧ childrenRep fsys root es

/-- `fsys` presents every subdirectory of the listing `es` of `root`. -/
def childrenRep (fsys : String → List DirEnt) (root : String) : List Entry → Prop
  | [] => True
  | .file _ :: rest => childrenRep fsys root rest
  | .dir n cs :: rest => treeRep fsys (pathJoin root n) cs ∧ childrenRep fsys root rest

end

/-- Depth of a listing: number of directory levels below it. -/
def depthE : List Entry → Nat
  | [] => 0
  | .file _ :: rest => depthE rest
  | .dir _ cs :: rest => max (depthE cs + 1) (depthE rest)

/-- A one-directory loop, as a symlink `loop -> .` would produce: every
directory's listing is a single subdirectory. -/
def cyclicFS : String → List DirEnt := fun _ => [⟨"loop", false⟩]

/-! ### Proof-level helpers -/

/-- The character content contributed by the name components of a path:
a separator before each component. -/
def flattenComps (comps : List String) : List Char :=
  comps.foldr (fun c acc => '/' :: (c.data ++ acc)) []

/-- A character list that is empty or starts with the separator. -/
def headSlash : List Char → Prop
  | [] => True
  | c :: _ => c = '/'

/-!
## Theorems

One theorem per claim (C1-C10 of the specification audit), preceded by the
supporting lemmas it needs.
-/

/-- C3: if the prefix option is empty, the sequence passed to the template
renderer under the key "pictures" equals the raw collected path list
unchanged — each element is the plain path string itself, not a record. -/
theorem empty_option_passes_raw_paths (media_dir : String) (ps : List String) :
    composePictures media_dir "" ps = ps.map PicVal.raw := by
  simp [composePictures]

/-- C7: the page composer always writes to `<MediaRoot>/index.html`,
overwriting whatever was there, and running it a second time on the same
inputs leaves the filesystem unchanged (the same bytes are written to the
same path). -/
theorem composer_overwrites_index_idempotently
    (render : String → List PicVal → String) (media_dir pfx : String)
    (pictures : List String) (fs : String → Option String) :
    composeRun render media_dir pfx pictures fs (pathJoin media_dir "index.html")
      = some (render "template.html" (composePictures media_dir pfx pictures))
    ∧ composeRun render media_dir pfx pictures
        (composeRun render media_dir pfx pictures fs)
      = composeRun render media_dir pfx pictures fs := by
  refine ⟨by simp [composeRun, writeFile], funext fun q => ?_⟩
  by_cases h : q = pathJoin media_dir "index.html" <;>
    simp [composeRun, writeFile, h]

/-- C8: an invocation without `-media-dir` leaves `args.media_dir = None`,
`os.path.abspath(None)` raises `TypeError`, and the run terminates in error
before collecting any path or rendering anything: no `RunResult` is
produced. -/
theorem media_dir_required (ap : String → String)
    (render : String → List PicVal → String) (tree : List Entry)
    (init_dataset : Int) (pfx : String) :
    mainRun ap render tree none init_dataset pfx = .error .typeError
    ∧ ∀ r : RunResult, mainRun ap render tree none init_dataset pfx ≠ .ok r := by
  exact ⟨rfl, fun r h => by simp [mainRun] at h⟩

/-- C5: the exit status of each `curl` is never inspected, so the trace of
attempted fetches is the same whatever the outcomes are: every index below
`count` is still fetched, even when an earlier index failed. -/
theorem fetch_failures_not_checked (dst : String) (count : Nat) (ok : Nat → Bool)
    (i : Nat) (_hfail : ok i = false) :
    (download_dataset_run dst count ok).map Prod.fst = download_dataset dst count
    ∧ ∀ j, j < count →
        (download_dataset_run dst count ok)[j]?
          = some (⟨picsumURL j, fetchDest dst j⟩, ok j) := by
  constructor
  · simp [download_dataset_run, download_dataset]
  · intro j hj
    simp [download_dataset_run, List.getElem?_range hj]

/-- Witness for C5 at a concrete run: with two fetches whose first fails,
both indices are still fetched. -/
theorem fetch_failures_not_checked_witness :
    (download_dataset_run "/m" 2 (fun _ => false)).map Prod.fst
      = download_dataset "/m" 2
    ∧ ∀ j, j < 2 →
        (download_dataset_run "/m" 2 (fun _ => false))[j]?
          = some (⟨picsumURL j, fetchDest "/m" j⟩, false) :=
  fetch_failures_not_checked "/m" 2 (fun _ => false) 0 rfl

/-- A regular file in a listing contributes its joined path to `get_paths`'s
output. -/
theorem mem_getPaths_of_file {n : String} {es : List Entry} (root : String)
    (h : Entry.file n ∈ es) : pathJoin root n ∈ getPaths root es := by
  induction es with
  | nil => cases h
  | cons e rest ih =>
    cases e with
    | file m =>
      simp only [getPaths, List.mem_cons]
      rcases List.mem_cons.1 h with heq | hmem
      · injection heq with hnm
        exact Or.inl (by rw [hnm])
      · exact Or.inr (ih hmem)
    | dir m cs =>
      simp only [getPaths, List.mem_append]
      rcases List.mem_cons.1 h with heq | hmem
      · exact absurd heq (by simp)
      · exact Or.inr (ih hmem)

/-- C10: a completed run leaves a regular file `index.html` directly under
the media root (provided no directory of that name sits there, in which case
the final `open` would fail), so a subsequent run over the otherwise
unchanged root collects `MediaRoot/index.html` into its `pictures` list. -/
theorem output_feeds_next_run (media_dir : String) (es : List Entry)
    (h : noIndexDir es = true) :
    Entry.file "index.html" ∈ afterRun es
    ∧ pathJoin media_dir "index.html" ∈ getPaths media_dir (afterRun es) := by
  have hmem : Entry.file "index.html" ∈ afterRun es := by
    unfold afterRun
    split
    · next hc =>
      have : "index.html" ∈ es.map entryName := by
        simpa using hc
      rcases List.mem_map.1 this with ⟨e, he, hname⟩
      cases e with
      | file m => rwa [show m = "index.html" from hname] at he
      | dir m cs =>
        exfalso
        have := List.all_eq_true.1 h _ he
        rw [show m = "index.html" from hname] at this
        simp at this
    · exact List.mem_append.2 (Or.inr (List.mem_cons_self _ _))
  exact ⟨hmem, mem_getPaths_of_file media_dir hmem⟩

/-- Witness for C10: a root holding one picture gains `index.html`, and the
next run collects its path. -/
theorem output_feeds_next_run_witness :
    Entry.file "index.html" ∈ afterRun [Entry.file "a.jpg"]
    ∧ pathJoin "/m" "index.html" ∈ getPaths "/m" (afterRun [Entry.file "a.jpg"]) :=
  output_feeds_next_run "/m" [Entry.file "a.jpg"] (by simp [noIndexDir])

/-! ### Injectivity of decimal rendering (for the distinct-URL part of C4) -/

/-- `Nat.digitChar` is injective below 16. -/
theorem digitChar_inj_lt :
    ∀ a < 16, ∀ b < 16, Nat.digitChar a = Nat.digitChar b → a = b := by decide

/-- With enough fuel, core's `Nat.toDigitsCore` at base 10 produces the
decimal digits of `n` (most significant first) in front of the accumulator. -/
theorem toDigitsCore_eq_digits :
    ∀ fuel n ds, 0 < n → n < fuel →
      Nat.toDigitsCore 10 fuel n ds
        = ((Nat.digits 10 n).map Nat.digitChar).reverse ++ ds := by
  intro fuel
  induction fuel with
  | zero => intro n ds h1 h2; omega
  | succ f ih =>
    intro n ds h1 h2
    have hdig : Nat.digits 10 n = n % 10 :: Nat.digits 10 (n / 10) :=
      Nat.digits_def' (by norm_num) h1
    by_cases hq : n / 10 = 0
    · rw [Nat.toDigitsCore, if_pos hq, hdig, hq]
      simp
    · have hq1 : 0 < n / 10 := Nat.pos_of_ne_zero hq
      have hlt : n / 10 < f := by
        have := Nat.div_lt_self h1 (by norm_num : 1 < 10)
        omega
      rw [Nat.toDigitsCore, if_neg hq, ih (n / 10) _ hq1 hlt, hdig]
      simp

/-- `Nat.toDigits 10` is injective. -/
theorem toDigits_ten_inj (m n : Nat) (h : Nat.toDigits 10 m = Nat.toDigits 10 n) :
    m = n := by
  have digitsChar_inj : ∀ l1 l2 : List Nat, (∀ x ∈ l1, x < 16) → (∀ x ∈ l2, x < 16) →
      l1.map Nat.digitChar = l2.map Nat.digitChar → l1 = l2 := by
    intro l1
    induction l1 with
    | nil => intro l2 _ _ h'; cases l2 <;> simp_all
    | cons a l1' ih =>
      intro l2 hb1 hb2 h'
      cases l2 with
      | nil => simp at h'
      | cons b l2' =>
        simp only [List.map_cons, List.cons.injEq] at h'
        have ha := hb1 a (List.mem_cons_self _ _)
        have hb := hb2 b (List.mem_cons_self _ _)
        have : a = b := digitChar_inj_lt a ha b hb h'.1
        rw [this, ih l2' (fun x hx => hb1 x (List.mem_cons_of_mem _ hx))
          (fun x hx => hb2 x (List.mem_cons_of_mem _ hx)) h'.2]
  have digits_bound : ∀ k : Nat, ∀ x ∈ Nat.digits 10 k, x < 16 :=
    fun k x hx => lt_trans (Nat.digits_lt_base (by norm_num) hx) (by norm_num)
  have key : ∀ k : Nat, 0 < k →
      Nat.toDigits 10 k = ((Nat.digits 10 k).map Nat.digitChar).reverse := by
    intro k hk
    rw [Nat.toDigits, toDigitsCore_eq_digits (k + 1) k [] hk (Nat.lt_succ_self k),
      List.append_nil]
  rcases Nat.eq_zero_or_pos m with hm | hm <;> rcases Nat.eq_zero_or_pos n with hn | hn
  · omega
  · exfalso
    rw [hm, key n hn] at h
    have : Nat.digits 10 n = [0] := by
      have hlen : ((Nat.digits 10 n).map Nat.digitChar).reverse.length = 1 := by
        rw [← h]; rfl
      simp only [List.length_reverse, List.length_map] at hlen
      rcases List.length_eq_one.1 hlen with ⟨d, hd⟩
      rw [hd] at h ⊢
      simp only [List.map_cons, List.map_nil, List.reverse_cons, List.reverse_nil,
        List.nil_append] at h
      have hchar : Nat.digitChar d = '0' := by
        have : Nat.toDigits 10 0 = ['0'] := rfl
        rw [this] at h
        exact (List.cons.injEq _ _ _ _ ▸ h.symm).1
      have hd16 : d < 16 := digits_bound n d (hd ▸ List.mem_cons_self _ _)
      have : d = 0 := digitChar_inj_lt d hd16 0 (by norm_num)
        (by rw [hchar]; rfl)
      rw [this]
    have hofd := Nat.ofDigits_digits 10 n
    rw [‹Nat.digits 10 n = [0]›] at hofd
    simp [Nat.ofDigits] at hofd
    omega
  · exfalso
    rw [hn, key m hm] at h
    have : Nat.digits 10 m = [0] := by
      have hlen : ((Nat.digits 10 m).map Nat.digitChar).reverse.length = 1 := by
        rw [h]; rfl
      simp only [List.length_reverse, List.length_map] at hlen
      rcases List.length_eq_one.1 hlen with ⟨d, hd⟩
      rw [hd] at h ⊢
      simp only [List.map_cons, List.map_nil, List.reverse_cons, List.reverse_nil,
        List.nil_append] at h
      have hchar : Nat.digitChar d = '0' := by
        have h0 : Nat.toDigits 10 0 = ['0'] := rfl
        rw [h0] at h
        exact (List.cons.injEq _ _ _ _ ▸ h).1
      have hd16 : d < 16 := digits_bound m d (hd ▸ List.mem_cons_self _ _)
      have : d = 0 := digitChar_inj_lt d hd16 0 (by norm_num)
        (by rw [hchar]; rfl)
      rw [this]
    have hofd := Nat.ofDigits_digits 10 m
    rw [‹Nat.digits 10 m = [0]›] at hofd
    simp [Nat.ofDigits] at hofd
    omega
  · rw [key m hm, key n hn] at h
    have h' := List.reverse_injective h
    have := digitsChar_inj _ _ (digits_bound m) (digits_bound n) h'
    calc m = Nat.ofDigits 10 (Nat.digits 10 m) := (Nat.ofDigits_digits 10 m).symm
    _ = Nat.ofDigits 10 (Nat.digits 10 n) := by rw [this]
    _ = n := Nat.ofDigits_digits 10 n

/-- `toString` on naturals (`Nat.repr`) is injective. -/
theorem natToString_inj (m n : Nat) (h : toString m = toString n) : m = n := by
  have h' : Nat.repr m = Nat.repr n := h
  unfold Nat.repr at h'
  have : Nat.toDigits 10 m = Nat.toDigits 10 n := by
    have := congrArg String.data h'
    simpa [List.asString] using this
  exact toDigits_ten_inj m n this

/-- The URL requested for index `i` determines `i`. -/
theorem picsumURL_inj (i j : Nat) (h : picsumURL i = picsumURL j) : i = j := by
  unfold picsumURL at h
  have hd := congrArg String.data h
  simp only [String.data_append] at hd
  exact natToString_inj i j (String.ext (List.append_cancel_left hd))

/-- C4: `download_dataset` with destination `D` and count `N` issues exactly
`N` fetches, the `i`-th requesting the resource parameterized by `i` and
writing to `D/i.jpg`; the requested URLs are pairwise distinct; and for
count 3 the produced files are exactly `0.jpg`, `1.jpg`, `2.jpg` in `D`. -/
theorem seeder_fetches_indexed (dst : String) (count : Nat) :
    (download_dataset dst count).length = count
    ∧ (∀ i, i < count →
        (download_dataset dst count)[i]? = some ⟨picsumURL i, fetchDest dst i⟩)
    ∧ ((download_dataset dst count).map FetchOp.url).Nodup
    ∧ (download_dataset dst 3).map FetchOp.dest
        = [pathJoin dst "0.jpg", pathJoin dst "1.jpg", pathJoin dst "2.jpg"] := by
  refine ⟨by simp [download_dataset], ?_, ?_, ?_⟩
  · intro i hi
    simp [download_dataset, List.getElem?_range hi]
  · have : (download_dataset dst count).map FetchOp.url
        = (List.range count).map picsumURL := by
      simp [download_dataset]
    rw [this]
    exact (List.nodup_range count).map (fun _ _ h => picsumURL_inj _ _ h)
  · have h0 : fetchDest dst 0 = pathJoin dst "0.jpg" := by
      unfold fetchDest pathJoin
      rw [show (toString (0 : Nat)) = "0" from rfl, String.append_assoc,
        show ("0" ++ ".jpg" : String) = "0.jpg" from rfl]
    have h1 : fetchDest dst 1 = pathJoin dst "1.jpg" := by
      unfold fetchDest pathJoin
      rw [show (toString (1 : Nat)) = "1" from rfl, String.append_assoc,
        show ("1" ++ ".jpg" : String) = "1.jpg" from rfl]
    have h2 : fetchDest dst 2 = pathJoin dst "2.jpg" := by
      unfold fetchDest pathJoin
      rw [show (toString (2 : Nat)) = "2" from rfl, String.append_assoc,
        show ("2" ++ ".jpg" : String) = "2.jpg" from rfl]
    simp [download_dataset, List.range_succ, h0, h1, h2]

/-- Witness for C4 at a concrete index: the third of three fetches requests
the resource for index 2 and writes to `/data/2.jpg`. -/
theorem seeder_fetches_indexed_witness :
    (download_dataset "/data" 3)[2]?
      = some ⟨picsumURL 2, fetchDest "/data" 2⟩ :=
  (seeder_fetches_indexed "/data" 3).2.1 2 (by decide)

/-! ### Behaviour of the `str.replace` scan (for C2 and C9) -/

/-- If the pattern occurs nowhere in `s`, the scan copies `s` unchanged. -/
theorem replaceGo_of_not_infix (o : Char) (os new : List Char) :
    ∀ s : List Char, ¬ (o :: os) <:+: s → replaceGo o os new s = s := by
  intro s
  induction s with
  | nil => intro _; simp [replaceGo]
  | cons c rest ih =>
    intro hno
    have hne : ¬ ((o :: os).isPrefixOf (c :: rest) = true) := fun hpre =>
      hno ((List.isPrefixOf_iff_prefix.1 hpre).isInfix)
    rw [replaceGo, if_neg hne, ih (fun hi => hno (List.infix_cons hi))]

/-- A match at the head of the scanned list is consumed whole: the
replacement is emitted and scanning resumes after it. -/
theorem replaceGo_head_match (o : Char) (os new t : List Char) :
    replaceGo o os new ((o :: os) ++ t) = new ++ replaceGo o os new t := by
  rw [List.cons_append, replaceGo]
  rw [if_pos (List.isPrefixOf_iff_prefix.2 ⟨t, by simp⟩), List.drop_left]

/-- If no occurrence of the pattern starts inside `u`, the scan copies `u`
and continues on `s`. -/
theorem replaceGo_skip (o : Char) (os new : List Char) :
    ∀ u s : List Char,
      (∀ w ∈ u.tails, w ≠ [] → ¬ (o :: os) <+: (w ++ s)) →
      replaceGo o os new (u ++ s) = u ++ replaceGo o os new s := by
  intro u
  induction u with
  | nil => intro s _; rfl
  | cons c u' ih =>
    intro s h
    have hne : ¬ ((o :: os).isPrefixOf (c :: (u' ++ s)) = true) := fun hpre =>
      h (c :: u') (by rw [List.tails_cons]; exact List.mem_cons_self _ _)
        (by simp) (by simpa using List.isPrefixOf_iff_prefix.1 hpre)
    rw [List.cons_append, replaceGo, if_neg hne,
      ih s (fun w hw hw' => h w (by rw [List.tails_cons]; exact List.mem_cons_of_mem _ hw) hw'),
      List.cons_append]

/-- Reduce `pyReplace` to the scan when the pattern is non-empty. -/
theorem pyReplace_eq_go (s old new : String) (o : Char) (os : List Char)
    (h : old.data = o :: os) :
    pyReplace s old new = ⟨replaceGo o os new.data s.data⟩ := by
  unfold pyReplace
  rw [h]

/-- The root-plus-separator pattern, as a character list, is a cons. -/
theorem root_pattern_cons (md : String) :
    ∃ o os, (md ++ "/").data = o :: os := by
  rw [String.data_append, show ("/" : String).data = ['/'] from rfl]
  cases h : md.data with
  | nil => exact ⟨'/', [], rfl⟩
  | cons c cs => exact ⟨c, cs ++ ['/'], rfl⟩

/-- C2: with a non-empty prefix `X` and media root `md`, a collected path
`md ++ "/" ++ rest` whose remainder does not itself contain `md ++ "/"`
is mapped to the record `{key: X ++ rest}` — the leading
MediaRoot-plus-separator segment is replaced by the prefix. -/
theorem record_key_replaces_root (md pfx rest : String) (hp : pfx ≠ "")
    (hno : ¬ (md ++ "/").data <:+: rest.data) :
    composePictures md pfx [md ++ "/" ++ rest] = [PicVal.record (pfx ++ rest)] := by
  rw [composePictures, if_neg hp]
  obtain ⟨o, os, hcons⟩ := root_pattern_cons md
  rw [List.map_cons, List.map_nil, pyReplace_eq_go _ _ _ o os hcons]
  have hdata : (md ++ "/" ++ rest).data = (o :: os) ++ rest.data := by
    rw [String.data_append, hcons]
  rw [hdata, replaceGo_head_match,
    replaceGo_of_not_infix o os pfx.data rest.data (hcons ▸ hno)]
  have : (⟨pfx.data ++ rest.data⟩ : String) = pfx ++ rest := by
    apply String.ext
    rw [String.data_append]
  rw [this]

/-- Witness for C2, the spec's own example: with prefix `"X"` and media root
`"/a/b"`, the collected path `"/a/b/c/d.jpg"` maps to `{key: "Xc/d.jpg"}`. -/
theorem record_key_replaces_root_witness :
    composePictures "/a/b" "X" ["/a/b" ++ "/" ++ "c/d.jpg"]
      = [PicVal.record ("X" ++ "c/d.jpg")] :=
  record_key_replaces_root "/a/b" "X" "c/d.jpg" (by decide) (by decide)

/-- C9: the substitution is a global `str.replace`, not a prefix strip — in a
collected path `md ++ "/" ++ u ++ (md ++ "/") ++ v` holding a second, interior
occurrence of the MediaRoot-plus-separator segment, the interior occurrence is
replaced by the prefix as well (side conditions: no further occurrence starts
inside `u` or inside `v`). -/
theorem interior_occurrence_also_replaced (md pfx u v : String) (hp : pfx ≠ "")
    (hu : ∀ w ∈ u.data.tails, w ≠ [] →
      ¬ (md ++ "/").data <+: (w ++ ((md ++ "/").data ++ v.data)))
    (hv : ¬ (md ++ "/").data <:+: v.data) :
    composePictures md pfx [md ++ "/" ++ u ++ (md ++ "/") ++ v]
      = [PicVal.record (pfx ++ u ++ pfx ++ v)] := by
  rw [composePictures, if_neg hp]
  obtain ⟨o, os, hcons⟩ := root_pattern_cons md
  rw [List.map_cons, List.map_nil, pyReplace_eq_go _ _ _ o os hcons]
  have hdata : (md ++ "/" ++ u ++ (md ++ "/") ++ v).data
      = (o :: os) ++ (u.data ++ ((o :: os) ++ v.data)) := by
    simp only [String.data_append, hcons, List.append_assoc]
  rw [hdata, replaceGo_head_match, replaceGo_skip o os pfx.data u.data _
      (by rw [← hcons]; exact hu),
    replaceGo_head_match, replaceGo_of_not_infix o os pfx.data v.data (hcons ▸ hv)]
  apply congrArg (fun k => [PicVal.record k])
  apply String.ext
  simp [String.data_append]

/-- Witness for C9: with media root `"/a/b"` and prefix `"X"`, the path
`"/a/b/x/a/b/y.jpg"` (interior second occurrence of `"/a/b/"`) becomes
`"XxXy.jpg"` — both occurrences replaced. -/
theorem interior_occurrence_also_replaced_witness :
    composePictures "/a/b" "X" ["/a/b" ++ "/" ++ "x" ++ ("/a/b" ++ "/") ++ "y.jpg"]
      = [PicVal.record ("X" ++ "x" ++ "X" ++ "y.jpg")] :=
  interior_occurrence_also_replaced "/a/b" "X" "x" "y.jpg"
    (by decide) (by decide) (by decide)

/-! ### `get_paths` collects exactly the files of the tree (C1) -/

/-- Character content of a joined path. -/
theorem pathJoin_data (r n : String) :
    (pathJoin r n).data = r.data ++ '/' :: n.data := by
  rw [pathJoin, String.data_append, String.data_append,
    show ("/" : String).data = ['/'] from rfl, List.append_assoc, List.singleton_append]

/-- Unfolding `validList` into its two Bool conjuncts. -/
theorem validList_iff (es : List Entry) :
    validList es = true ↔ (es.map entryName).Nodup ∧ validEntries es = true := by
  simp [validList]

/-- Unfolding `validEntries` on a cons cell. -/
theorem validEntries_cons (e : Entry) (es : List Entry) :
    validEntries (e :: es) = true
      ↔ validEntry e = true ∧ validEntries es = true := by
  simp [validEntries]

/-- A separator-free name has no `'/'` among its characters. -/
theorem noSlash_iff (s : String) : noSlash s = true ↔ '/' ∉ s.data := by
  simp [noSlash, List.contains]

/-- `get_paths` output, entry by entry, is the joined path of every file
component sequence of the tree, in the same document order. -/
theorem getPaths_eq_spec :
    ∀ (root : String) (es : List Entry),
      getPaths root es = (filesUnder es).map (specPath root) := by
  intro root es
  induction root, es using getPaths.induct with
  | case1 root => simp [getPaths, filesUnder]
  | case2 root n rest ih =>
    rw [show getPaths root (Entry.file n :: rest)
        = pathJoin root n :: getPaths root rest from by simp [getPaths]]
    rw [show filesUnder (Entry.file n :: rest) = [n] :: filesUnder rest from by
      simp [filesUnder]]
    rw [List.map_cons, ih]
    rfl
  | case3 root n cs rest ih1 ih2 =>
    rw [show getPaths root (Entry.dir n cs :: rest)
        = getPaths (pathJoin root n) cs ++ getPaths root rest from by simp [getPaths]]
    rw [show filesUnder (Entry.dir n cs :: rest)
        = (filesUnder cs).map (n :: ·) ++ filesUnder rest from by simp [filesUnder]]
    rw [List.map_append, List.map_map, ih1, ih2]
    rfl

/-- Character content of a spec path: the root followed by a separator before
each component. -/
theorem specPath_data :
    ∀ (comps : List String) (root : String),
      (specPath root comps).data = root.data ++ flattenComps comps := by
  intro comps
  induction comps with
  | nil => intro root; simp [specPath, flattenComps]
  | cons c cs ih =>
    intro root
    rw [show specPath root (c :: cs) = specPath (pathJoin root c) cs from rfl,
      ih, pathJoin_data,
      show flattenComps (c :: cs) = '/' :: (c.data ++ flattenComps cs) from rfl]
    simp [List.append_assoc]

/-- Splitting an equation between a separator-free block and a tail that is
empty or separator-headed determines both halves. -/
theorem append_chomp :
    ∀ a b u v : List Char, '/' ∉ a → '/' ∉ b → headSlash u → headSlash v →
      a ++ u = b ++ v → a = b ∧ u = v := by
  intro a
  induction a with
  | nil =>
    intro b u v _ hb hu _ h
    cases b with
    | nil => exact ⟨rfl, h⟩
    | cons x b' =>
      exfalso
      rw [List.nil_append] at h
      cases u with
      | nil => simp at h
      | cons cu u' =>
        injection h with h1 _
        rw [show headSlash (cu :: u') = (cu = '/') from rfl] at hu
        exact hb (h1 ▸ hu ▸ List.mem_cons_self _ _)
  | cons ca a' ih =>
    intro b u v ha hb hu hv h
    cases b with
    | nil =>
      exfalso
      rw [List.nil_append] at h
      cases v with
      | nil => simp at h
      | cons cv v' =>
        injection h with h1 _
        rw [show headSlash (cv :: v') = (cv = '/') from rfl] at hv
        exact ha (h1 ▸ hv ▸ List.mem_cons_self _ _)
    | cons cb b' =>
      rw [List.cons_append, List.cons_append] at h
      injection h with h1 h2
      have hrec := ih b' u v (fun hm => ha (List.mem_cons_of_mem _ hm))
        (fun hm => hb (List.mem_cons_of_mem _ hm)) hu hv h2
      exact ⟨by rw [h1, hrec.1], hrec.2⟩

/-- The flattened components are empty or separator-headed. -/
theorem flattenComps_headSlash : ∀ comps : List String, headSlash (flattenComps comps) := by
  intro comps
  cases comps with
  | nil => exact trivial
  | cons c cs => exact rfl

/-- On separator-free components, flattening is injective. -/
theorem flattenComps_inj :
    ∀ cs ds : List String, (∀ c ∈ cs, '/' ∉ c.data) → (∀ d ∈ ds, '/' ∉ d.data) →
      flattenComps cs = flattenComps ds → cs = ds := by
  intro cs
  induction cs with
  | nil =>
    intro ds _ _ h
    cases ds with
    | nil => rfl
    | cons d ds' => simp [flattenComps] at h
  | cons c cs' ih =>
    intro ds hc hd h
    cases ds with
    | nil => simp [flattenComps] at h
    | cons d ds' =>
      rw [show flattenComps (c :: cs') = '/' :: (c.data ++ flattenComps cs') from rfl,
        show flattenComps (d :: ds') = '/' :: (d.data ++ flattenComps ds') from rfl] at h
      injection h with _ h2
      have hch := append_chomp c.data d.data (flattenComps cs') (flattenComps ds')
        (hc c (List.mem_cons_self _ _)) (hd d (List.mem_cons_self _ _))
        (flattenComps_headSlash cs') (flattenComps_headSlash ds') h2
      rw [String.ext hch.1,
        ih ds' (fun x hx => hc x (List.mem_cons_of_mem _ hx))
          (fun x hx => hd x (List.mem_cons_of_mem _ hx)) hch.2]

/-- In a well-formed tree every component of every file sequence is
separator-free. -/
theorem filesUnder_noSlash :
    ∀ es : List Entry, validEntries es = true →
      ∀ comps ∈ filesUnder es, ∀ c ∈ comps, '/' ∉ c.data := by
  intro es
  induction es using filesUnder.induct with
  | case1 => intro _ comps hc; simp [filesUnder] at hc
  | case2 n rest ih =>
    intro hv comps hc c hcc
    obtain ⟨he, hrest⟩ := (validEntries_cons _ _).1 hv
    rw [show filesUnder (Entry.file n :: rest) = [n] :: filesUnder rest from by
      simp [filesUnder]] at hc
    rcases List.mem_cons.1 hc with rfl | hmem
    · rcases List.mem_singleton.1 hcc with rfl
      exact (noSlash_iff _).1 (by simpa [validEntry] using he)
    · exact ih hrest comps hmem c hcc
  | case3 n cs rest ih1 ih2 =>
    intro hv comps hc c hcc
    obtain ⟨he, hrest⟩ := (validEntries_cons _ _).1 hv
    have he' : noSlash n = true ∧ validList cs = true := by
      simpa [validEntry] using he
    rw [show filesUnder (Entry.dir n cs :: rest)
        = (filesUnder cs).map (n :: ·) ++ filesUnder rest from by simp [filesUnder]] at hc
    rcases List.mem_append.1 hc with hmem | hmem
    · obtain ⟨comps', hcomps', rfl⟩ := List.mem_map.1 hmem
      rcases List.mem_cons.1 hcc with rfl | hcc'
      · exact (noSlash_iff _).1 he'.1
      · exact ih1 ((validList_iff cs).1 he'.2).2 comps' hcomps' c hcc'
    · exact ih2 hrest comps hmem c hcc

/-- Every file sequence of a listing starts with the name of one of its
entries. -/
theorem filesUnder_head :
    ∀ es : List Entry, ∀ comps ∈ filesUnder es,
      ∃ e ∈ es, ∃ t, comps = entryName e :: t := by
  intro es
  induction es with
  | nil => intro comps hc; simp [filesUnder] at hc
  | cons e rest ih =>
    intro comps hc
    cases e with
    | file n =>
      rw [show filesUnder (Entry.file n :: rest) = [n] :: filesUnder rest from by
        simp [filesUnder]] at hc
      rcases List.mem_cons.1 hc with rfl | hmem
      · exact ⟨Entry.file n, List.mem_cons_self _ _, [], rfl⟩
      · obtain ⟨e', he', t, ht⟩ := ih comps hmem
        exact ⟨e', List.mem_cons_of_mem _ he', t, ht⟩
    | dir n cs =>
      rw [show filesUnder (Entry.dir n cs :: rest)
          = (filesUnder cs).map (n :: ·) ++ filesUnder rest from by simp [filesUnder]] at hc
      rcases List.mem_append.1 hc with hmem | hmem
      · obtain ⟨comps', _, rfl⟩ := List.mem_map.1 hmem
        exact ⟨Entry.dir n cs, List.mem_cons_self _ _, comps', rfl⟩
      · obtain ⟨e', he', t, ht⟩ := ih comps hmem
        exact ⟨e', List.mem_cons_of_mem _ he', t, ht⟩

/-- In a well-formed tree the file component sequences are pairwise
distinct. -/
theorem filesUnder_nodup :
    ∀ es : List Entry, validList es = true → (filesUnder es).Nodup := by
  intro es
  induction es using filesUnder.induct with
  | case1 => intro _; simp [filesUnder]
  | case2 n rest ih =>
    intro hv
    obtain ⟨hnd, hve⟩ := (validList_iff _).1 hv
    rw [List.map_cons, show entryName (Entry.file n) = n from rfl] at hnd
    obtain ⟨hnmem, hndrest⟩ := List.nodup_cons.1 hnd
    obtain ⟨-, hverest⟩ := (validEntries_cons _ _).1 hve
    rw [show filesUnder (Entry.file n :: rest) = [n] :: filesUnder rest from by
      simp [filesUnder]]
    refine List.nodup_cons.2 ⟨?_, ih ((validList_iff _).2 ⟨hndrest, hverest⟩)⟩
    intro hmem
    obtain ⟨e, he, t, ht⟩ := filesUnder_head rest [n] hmem
    injection ht with h1 h2
    exact hnmem (h1 ▸ List.mem_map_of_mem entryName he)
  | case3 n cs rest ih1 ih2 =>
    intro hv
    obtain ⟨hnd, hve⟩ := (validList_iff _).1 hv
    rw [List.map_cons, show entryName (Entry.dir n cs) = n from rfl] at hnd
    obtain ⟨hnmem, hndrest⟩ := List.nodup_cons.1 hnd
    obtain ⟨he, hverest⟩ := (validEntries_cons _ _).1 hve
    have hcs : validList cs = true := by
      have := (by simpa [validEntry] using he : noSlash n = true ∧ validList cs = true)
      exact this.2
    rw [show filesUnder (Entry.dir n cs :: rest)
        = (filesUnder cs).map (n :: ·) ++ filesUnder rest from by simp [filesUnder]]
    refine List.Nodup.append ((ih1 hcs).map fun a b hab => ?_)
      (ih2 ((validList_iff _).2 ⟨hndrest, hverest⟩)) ?_
    · injection hab
    · intro comps hin1 hin2
      obtain ⟨comps', -, rfl⟩ := List.mem_map.1 hin1
      obtain ⟨e', he', t, ht⟩ := filesUnder_head rest _ hin2
      injection ht with h1 h2
      exact hnmem (h1 ▸ List.mem_map_of_mem entryName he')

/-- C1: on a well-formed finite tree (distinct separator-free sibling names —
what a real directory guarantees), `get_paths` returns the paths of exactly
the regular files anywhere under the root: no duplicates, no omissions, at
any nesting depth. -/
theorem getPaths_collects_exactly (root : String) (es : List Entry)
    (h : validList es = true) :
    (getPaths root es).Nodup
    ∧ ∀ p, p ∈ getPaths root es ↔ p ∈ specFilePaths root es := by
  have heqn := getPaths_eq_spec root es
  constructor
  · rw [heqn]
    have hnd := filesUnder_nodup es h
    have hsl := filesUnder_noSlash es ((validList_iff es).1 h).2
    refine List.Nodup.map_on ?_ hnd
    intro x hx y hy hxy
    have hdx := specPath_data x root
    have hdy := specPath_data y root
    have hflat : root.data ++ flattenComps x = root.data ++ flattenComps y := by
      rw [← hdx, ← hdy, hxy]
    exact flattenComps_inj x y (hsl x hx) (hsl y hy)
      (List.append_cancel_left hflat)
  · intro p
    rw [heqn, specFilePaths]

/-- Witness for C1 on a two-level tree. -/
theorem getPaths_collects_exactly_witness :
    validList [Entry.dir "sub" [Entry.file "b.jpg"], Entry.file "a.jpg"] = true
    ∧ ((getPaths "/m" [Entry.dir "sub" [Entry.file "b.jpg"], Entry.file "a.jpg"]).Nodup
      ∧ ∀ p, p ∈ getPaths "/m" [Entry.dir "sub" [Entry.file "b.jpg"], Entry.file "a.jpg"]
          ↔ p ∈ specFilePaths "/m" [Entry.dir "sub" [Entry.file "b.jpg"], Entry.file "a.jpg"]) :=
  ⟨by simp [validList, validEntries, validEntry, noSlash]; decide,
   getPaths_collects_exactly "/m" _
    (by simp [validList, validEntries, validEntry, noSlash]; decide)⟩

/-! ### Termination of the traversal (C6) -/

/-- On any listing function presenting the finite tree `es` at `root`, the
traversal bottoms out once the fuel exceeds the tree depth, and produces
exactly `get_paths`'s result. -/
theorem getPathsF_of_treeRep (fsys : String → List DirEnt) :
    ∀ (fuel : Nat) (es : List Entry) (root : String),
      treeRep fsys root es → depthE es < fuel →
      getPathsF fsys fuel root = some (getPaths root es) := by
  intro fuel
  induction fuel with
  | zero => intro es root _ hd; omega
  | succ f ih =>
    intro es root hrep hd
    rw [show treeRep fsys root es
        = (fsys root = es.map toDirEnt ∧ childrenRep fsys root es) from by
      simp [treeRep]] at hrep
    obtain ⟨hroot, hch⟩ := hrep
    rw [show getPathsF fsys (f + 1) root = getEntriesF fsys f root (fsys root) from by
      simp [getPathsF], hroot]
    have inner : ∀ es' : List Entry, childrenRep fsys root es' → depthE es' < f + 1 →
        getEntriesF fsys f root (es'.map toDirEnt) = some (getPaths root es') := by
      intro es'
      induction es' with
      | nil => intro _ _; simp [getEntriesF, getPaths]
      | cons e rest ihr =>
        cases e with
        | file n =>
          intro hc hdep
          rw [show childrenRep fsys root (Entry.file n :: rest)
              = childrenRep fsys root rest from by simp [childrenRep]] at hc
          rw [show depthE (Entry.file n :: rest) = depthE rest from by
            simp [depthE]] at hdep
          rw [List.map_cons, show toDirEnt (Entry.file n) = ⟨n, true⟩ from rfl]
          rw [show getEntriesF fsys f root (⟨n, true⟩ :: rest.map toDirEnt)
              = (getEntriesF fsys f root (rest.map toDirEnt)).map
                  (pathJoin root n :: ·) from by simp [getEntriesF]]
          rw [ihr hc hdep]
          rw [show getPaths root (Entry.file n :: rest)
              = pathJoin root n :: getPaths root rest from by simp [getPaths]]
          rfl
        | dir n cs =>
          intro hc hdep
          rw [show childrenRep fsys root (Entry.dir n cs :: rest)
              = (treeRep fsys (pathJoin root n) cs ∧ childrenRep fsys root rest)
              from by simp [childrenRep]] at hc
          rw [show depthE (Entry.dir n cs :: rest)
              = max (depthE cs + 1) (depthE rest) from by simp [depthE]] at hdep
          obtain ⟨hcs, hrest⟩ := hc
          obtain ⟨hd1, hd2⟩ := Nat.max_lt.1 hdep
          rw [List.map_cons, show toDirEnt (Entry.dir n cs) = ⟨n, false⟩ from rfl]
          rw [show getEntriesF fsys f root (⟨n, false⟩ :: rest.map toDirEnt)
              = do
                  let sub ← getPathsF fsys f (pathJoin root n)
                  let r ← getEntriesF fsys f root (rest.map toDirEnt)
                  pure (sub ++ r)
              from by simp [getEntriesF]]
          rw [ih cs (pathJoin root n) hcs (by omega), ihr hrest hd2]
          rw [show getPaths root (Entry.dir n cs :: rest)
              = getPaths (pathJoin root n) cs ++ getPaths root rest from by
            simp [getPaths]]
          rfl
    exact inner es hch hd

/-- On the one-directory loop, the traversal never bottoms out, whatever the
fuel: the recursion would run forever. -/
theorem getPathsF_cyclic_none : ∀ (fuel : Nat) (root : String),
    getPathsF cyclicFS fuel root = none := by
  intro fuel
  induction fuel with
  | zero => intro root; simp [getPathsF]
  | succ f ih =>
    intro root
    rw [show getPathsF cyclicFS (f + 1) root
        = getEntriesF cyclicFS f root (cyclicFS root) from by simp [getPathsF]]
    rw [show cyclicFS root = [⟨"loop", false⟩] from rfl]
    rw [show getEntriesF cyclicFS f root [⟨"loop", false⟩]
        = do
            let sub ← getPathsF cyclicFS f (pathJoin root "loop")
            let r ← getEntriesF cyclicFS f root []
            pure (sub ++ r)
        from by simp [getEntriesF]]
    rw [ih (pathJoin root "loop")]
    rfl

/-- C6: `get_paths` terminates on every finite directory tree, at any
nesting depth — on a listing function presenting such a tree the traversal
completes within any fuel above the tree depth, with `get_paths`'s result.
There is no cycle detection: on the reachable-directory graph of a symlinked
directory loop the traversal exhausts every finite fuel, i.e. it does not
terminate. -/
theorem traversal_terminates_iff_acyclic :
    (∀ (fsys : String → List DirEnt) (root : String) (es : List Entry) (fuel : Nat),
        treeRep fsys root es → depthE es < fuel →
        getPathsF fsys fuel root = some (getPaths root es))
    ∧ (∀ (root : String) (fuel : Nat), getPathsF cyclicFS fuel root = none) :=
  ⟨fun fsys root es fuel hrep hd => getPathsF_of_treeRep fsys fuel es root hrep hd,
   fun root fuel => getPathsF_cyclic_none fuel root⟩

/-- Witness for C6: a one-file tree is fully traversed with fuel 1, while the
looped filesystem yields no result at that fuel (or any other). -/
theorem traversal_terminates_iff_acyclic_witness :
    getPathsF (fun q => if q = "/m" then [⟨"a", true⟩] else []) 1 "/m"
      = some (getPaths "/m" [Entry.file "a"])
    ∧ getPathsF cyclicFS 1 "/x" = none :=
  ⟨traversal_terminates_iff_acyclic.1 (fun q => if q = "/m" then [⟨"a", true⟩] else [])
      "/m" [Entry.file "a"] 1
      (by rw [show treeRep (fun q => if q = "/m" then [⟨"a", true⟩] else []) "/m"
              [Entry.file "a"]
            = ((fun q => if q = "/m" then [(⟨"a", true⟩ : DirEnt)] else []) "/m"
                = [Entry.file "a"].map toDirEnt
              ∧ childrenRep (fun q => if q = "/m" then [⟨"a", true⟩] else []) "/m"
                  [Entry.file "a"]) from by simp [treeRep]]
          exact ⟨by simp [toDirEnt], by simp [childrenRep]⟩)
      (by simp [depthE]),
   traversal_terminates_iff_acyclic.2 "/x" 1⟩

end Shell
